import Mathlib

/-!
Shallow embedding of the disrecord voice bot (src/src/main.rs) and of the
parts of its `wav` module and ULID codec that the adapter relies on, with
proofs of the behavioural claims about download chunking, stereo downmix,
auto-leave, the soundboard button protocol, guild-only guards, whitelist
listing, and the upload argument handling.

Machine integers are modelled as `Nat`/`Int` with explicit wrap-around
(`% 2 ^ w`) where the Rust code can wrap; Rust's `/` on signed integers is
`Int.tdiv` (truncation toward zero).
-/

/-! ### Basic identifiers -/

abbrev UserId := Nat

abbrev GuildId := Nat

abbrev ChannelId := Nat

/-- `MAX_FILE_SIZE` from main.rs line 58: `24 * (1 << 20)` bytes (24 MiB). -/
def MAX_FILE_SIZE : Nat := 24 * (1 <<< 20)

/-- `ROWS_PER_MESSAGE` from main.rs line 59. -/
def ROWS_PER_MESSAGE : Nat := 5

/-- `SOUNDS_PER_ROW` from main.rs line 60. -/
def SOUNDS_PER_ROW : Nat := 5

/-! ### WAV codec

Modelled from the spec: `wav.rs` is not present under src/, only its callers
are.  §4.1 of the spec fixes the codec: `package` emits a canonical RIFF/WAVE
byte stream (RIFF header, `fmt ` chunk for PCM, 1 channel, 48000 Hz, 16 bits
per sample, derived byte rate 96000 and block align 2, then a `data` chunk
with the samples little-endian), and `HEADER_SIZE` is the fixed byte length
of everything before the sample data: the canonical header is 44 bytes
(12-byte RIFF preamble + 24-byte fmt chunk + 8-byte data chunk header).
Bytes are modelled as `Nat` values below 256. -/

/-- Little-endian byte pair of a 16-bit value. -/
def u16le (n : Nat) : List Nat := [n % 256, n / 256 % 256]

/-- Little-endian byte quadruple of a 32-bit value. -/
def u32le (n : Nat) : List Nat :=
  [n % 256, n / 256 % 256, n / 2 ^ 16 % 256, n / 2 ^ 24 % 256]

namespace wav

/-- Modelled from the spec: size in bytes of the canonical WAV header. -/
def HEADER_SIZE : Nat := 44

/-- Modelled from the spec: the 44-byte canonical RIFF/WAVE header for a
`data` chunk of `dataLen` bytes (PCM, mono, 48 kHz, 16-bit). -/
def header (dataLen : Nat) : List Nat :=
  [82, 73, 70, 70] ++ u32le (36 + dataLen) ++
  [87, 65, 86, 69] ++
  [102, 109, 116, 32] ++ u32le 16 ++ u16le 1 ++ u16le 1 ++
  u32le 48000 ++ u32le 96000 ++ u16le 2 ++ u16le 16 ++
  [100, 97, 116, 97] ++ u32le dataLen

/-- Two's-complement little-endian bytes of one 16-bit signed sample. -/
def sampleToBytes (s : Int) : List Nat := u16le (s % 65536).toNat

/-- Little-endian byte stream of a sample sequence. -/
def samplesToBytes (l : List Int) : List Nat := (l.map sampleToBytes).flatten

/-- Modelled from the spec: `wav::package` — header followed by the samples
little-endian. -/
def package (samples : List Int) : List Nat :=
  header (2 * samples.length) ++ samplesToBytes samples

/-- Inverse of `samplesToBytes`: reads consecutive little-endian byte pairs
as 16-bit two's-complement samples (the body decoding done by `strip`). -/
def bytesToSamples : List Nat → List Int
  | b0 :: b1 :: rest =>
      (let u : Nat := b0 + 256 * b1
       if u < 32768 then (u : Int) else (u : Int) - 65536) :: bytesToSamples rest
  | _ => []

end wav

/-! ### Chunking (`slice::chunks`) -/

/-- Rust's `slice::chunks(k)`: consecutive chunks of `k` elements, the last
chunk possibly shorter.  (`chunks` panics on `k = 0`; we return `[]`.) -/
def chunksList {α : Type} (k : Nat) (l : List α) : List (List α) :=
  if hg : l.isEmpty ∨ k = 0 then [] else l.take k :: chunksList k (l.drop k)
termination_by l.length
decreasing_by
  push_neg at hg
  obtain ⟨h1, h2⟩ := hg
  have hl : 0 < l.length := by
    cases l with
    | nil => simp at h1
    | cons a t => simp
  simp only [List.length_drop]
  omega

/-! ### Download (`Handler::download`, main.rs lines 326-382) -/

/-- Samples per emitted file: `(MAX_FILE_SIZE - wav::HEADER_SIZE) / 2`
(main.rs line 348). -/
def downloadChunk : Nat := (MAX_FILE_SIZE - wav.HEADER_SIZE) / 2

/-- A file attached to a follow-up message. -/
structure Attachment where
  filename : String
  data : List Nat
deriving DecidableEq, Repr

/-- The attachments emitted by `Handler::download` for a non-`None` snapshot
`data` of user `username` (main.rs lines 347-366): one WAV per
`downloadChunk`-sample chunk; a single-chunk snapshot is named
`{user}.wav`, a multi-chunk one `{user}-1.wav`, `{user}-2.wav`, … -/
def downloadAttachments (username : String) (data : List Int) : List Attachment :=
  (chunksList downloadChunk data).enum.map fun ic =>
    { filename :=
        if data.length ≤ downloadChunk then username ++ ".wav"
        else username ++ "-" ++ toString (ic.1 + 1) ++ ".wav"
      data := wav.package ic.2 }

/-! ### Recorder actions and the voice-packet downmix
(`Handler::act`, main.rs lines 100-127) -/

namespace recorder

/-- `recorder::Action` (constructors as used by main.rs; reply channels are
represented by the requested user only). -/
inductive Action where
  | MapUser (user : UserId) (ssrc : Nat)
  | RegisterVoiceData (ssrc : Nat) (samples : List Int)
  | AddToWhitelist (user : UserId)
  | RemoveFromWhitelist (user : UserId)
  | GetWhitelist
  | GetData (user : UserId)
deriving DecidableEq

end recorder

/-- Rust `audio.chunks_exact(2)`: consecutive disjoint pairs, any trailing
element dropped. -/
def pairsExact : List Int → List (Int × Int)
  | a :: b :: rest => (a, b) :: pairsExact rest
  | _ => []

/-- The `as i16` cast of an `i32` value: two's-complement wrap into
`[-32768, 32767]`. -/
def i16cast (x : Int) : Int := (x + 32768) % 65536 - 32768

/-- The stereo→mono downmix of main.rs lines 114-117:
`((cs[0] as i32 + cs[1] as i32) / 2) as i16` over `chunks_exact(2)`.
Rust's `/` on `i32` truncates toward zero, hence `Int.tdiv`. -/
def downmixStereo (audio : List Int) : List Int :=
  (pairsExact audio).map fun p => i16cast ((p.1 + p.2).tdiv 2)

/-- The action sent for a voice packet (main.rs lines 109-121). -/
def voicePacketAction (ssrc : Nat) (audio : List Int) : recorder.Action :=
  recorder.Action.RegisterVoiceData ssrc (downmixStereo audio)

/-! ### Auto-leave (`Handler::voice_state_update` and
`Handler::disconnect_if_alone`, main.rs lines 78-85 and 591-612) -/

/-- Channel kinds distinguished by `disconnect_if_alone`. -/
inductive ChanKind where
  | voice
  | text
  | category
deriving DecidableEq

/-- The cached guild channel data `disconnect_if_alone` inspects. -/
structure GuildChannel where
  kind : ChanKind
  members : List UserId
  guildId : GuildId

/-- `Handler::disconnect_if_alone`: look the channel up in the cache, return
unless it is a voice channel whose sole member is the bot, otherwise leave
that channel's guild.  Returns the guild disconnected from, if any. -/
def disconnectIfAlone (cache : ChannelId → Option GuildChannel) (botId : UserId)
    (channel : ChannelId) : Option GuildId :=
  match cache channel with
  | none => none
  | some c =>
    if c.kind ≠ ChanKind.voice then none
    else if c.members.length = 1 ∧ c.members.head? = some botId then some c.guildId
    else none

/-- `Handler::voice_state_update`: apply `disconnect_if_alone` to the old
channel (if any) then to the new channel (if any); collect the guilds left. -/
def voiceStateUpdate (cache : ChannelId → Option GuildChannel) (botId : UserId)
    (oldChannel newChannel : Option ChannelId) : List GuildId :=
  (match oldChannel with
   | some ch => (disconnectIfAlone cache botId ch).toList
   | none => []) ++
  (match newChannel with
   | some ch => (disconnectIfAlone cache botId ch).toList
   | none => [])

/-! ### ULID textual form

Modelled from the spec: sound ids are 128-bit lexicographically sortable
identifiers rendered in Crockford base32 (the `ulid` crate's `to_string` /
`from_string`): 26 characters, most significant digit first, alphabet
`0123456789ABCDEFGHJKMNPQRSTVWXYZ`; parsing rejects strings whose length is
not 26, characters outside the alphabet, and values not below `2 ^ 128`. -/

/-- The Crockford base32 alphabet. -/
def crockford : List Char :=
  ['0', '1', '2', '3', '4', '5', '6', '7', '8', '9',
   'A', 'B', 'C', 'D', 'E', 'F', 'G', 'H', 'J', 'K',
   'M', 'N', 'P', 'Q', 'R', 'S', 'T', 'V', 'W', 'X', 'Y', 'Z']

/-- The `k` base-32 digits of `n`, most significant first. -/
def digitsBE : Nat → Nat → List Nat
  | 0, _ => []
  | k + 1, n => digitsBE k (n / 32) ++ [n % 32]

/-- `Ulid::to_string`: the 26-character Crockford base32 rendering. -/
def ulidToString (n : Nat) : String :=
  String.mk ((digitsBE 26 n).map fun d => crockford.getD d '0')

/-- Value of one Crockford base32 character. -/
def decodeChar (c : Char) : Option Nat := List.indexOf? c crockford

/-- `Ulid::from_string`: decode 26 Crockford base32 characters into a value
below `2 ^ 128`. -/
def ulidFromString (s : String) : Option Nat :=
  if s.length = 26 then
    match s.data.mapM decodeChar with
    | none => none
    | some ds =>
      let v := ds.foldl (fun acc d => acc * 32 + d) 0
      if v < 2 ^ 128 then some v else none
  else none

/-! ### Soundboard data and button rendering
(`Handler::list_sounds`, main.rs lines 384-460) -/

/-- Button styles offered by the chat SDK, as used by `upload`. -/
inductive ButtonStyle where
  | Primary
  | Success
  | Danger
  | Secondary
deriving DecidableEq, Repr

/-- Modelled from the spec: `soundboard::Sound` fields the adapter renders
(§3: id, name, optional emoji, color; group and index control only ordering,
which `list` already applied to the snapshot the adapter receives). -/
structure Sound where
  id : Nat
  name : String
  emoji : Option Char
  color : ButtonStyle
deriving DecidableEq, Repr

/-- A rendered message button. -/
structure Button where
  custom_id : String
  label : String
  style : ButtonStyle
  emoji : Option Char
deriving DecidableEq, Repr

/-- The button rendered for one sound (main.rs lines 439-448):
`custom_id` is the textual ULID of the sound's id. -/
def soundButton (s : Sound) : Button :=
  { custom_id := ulidToString s.id, label := s.name, style := s.color,
    emoji := s.emoji }

/-! ### Interaction handlers as effect sequences

Each handler of `impl Handler` is embedded as a pure function from its
inputs (command arguments, plus the values the surrounding context would
supply: cache contents, recorder replies, soundboard results) to the ordered
list of externally visible effects it performs.  An empty list means the
handler returned without doing anything. -/

/-- What a reply message carries. -/
inductive ReplyContent where
  | text (s : String)
  | mentionList (users : List UserId)
  | soundButtonReply (b : Button)
deriving DecidableEq, Repr

/-- Externally visible effects of a handler. -/
inductive Effect where
  | reply (c : ReplyContent)
  | deferResponse
  | recorderSend (a : recorder.Action)
  | followupFile (a : Attachment)
  | playSound (bytes : List Nat)
  | joinVoice (g : GuildId) (c : ChannelId)
  | leaveVoice (g : GuildId)
  | soundboardAdd (guild : GuildId) (name : String) (emoji : Option Char)
      (color : ButtonStyle) (group : String) (index : Option Nat)
  | soundboardDelete (guild : GuildId) (name : String)
  | sendButtonRows (rows : List (List Button))

/-- The users mentioned across a handler's reply effects. -/
def mentionedUsers (effects : List Effect) : List UserId :=
  (effects.map fun e =>
    match e with
    | Effect.reply (ReplyContent.mentionList l) => l
    | _ => []).flatten

/-- The `(*n - 1) as usize` computation of main.rs line 509: exact `i64`
subtraction (the debug-mode behaviour for every representable argument),
then the two's-complement cast to the 64-bit `usize`. -/
def uploadIndexArg (n : Int) : Nat := ((n - 1) % (2 ^ 64 : Int)).toNat

/-- The color-string match of main.rs lines 484-490, with its catch-all
`_ => ButtonStyle::Primary` arm. -/
def colorOf (s : String) : ButtonStyle :=
  if s = "blue" then ButtonStyle.Primary
  else if s = "green" then ButtonStyle.Success
  else if s = "red" then ButtonStyle.Danger
  else if s = "grey" then ButtonStyle.Secondary
  else ButtonStyle.Primary

namespace Handler

/-- `Handler::dispatch_component` (main.rs lines 151-181): missing guild ⇒
return before any effect; otherwise parse the `custom_id` as a ULID
(`none` models the `expect` panic on an unparsable id), fetch the WAV, and
when both the bytes and a live call exist, play the header-stripped body;
the interaction is deferred either way. -/
def dispatch_component (guild : Option GuildId) (customId : String)
    (getWav : Nat → Option (List Nat)) (inCall : Bool) : Option (List Effect) :=
  match guild with
  | none => some []
  | some _ =>
    match ulidFromString customId with
    | none => none
    | some id =>
      some ((match getWav id, inCall with
             | some w, true => [Effect.playSound (w.drop wav.HEADER_SIZE)]
             | _, _ => []) ++ [Effect.deferResponse])

/-- `Handler::list` (main.rs lines 207-246): missing guild ⇒ no effect;
otherwise request the whitelist, intersect it with the guild's members, and
reply with the mentions (or `*Nobody.*` when the intersection is empty). -/
def list (guild : Option GuildId) (whitelist : List UserId)
    (guildMembers : List UserId) : List Effect :=
  match guild with
  | none => []
  | some _ =>
    let mentioned := whitelist.filter fun u => guildMembers.contains u
    [Effect.recorderSend recorder.Action.GetWhitelist,
     Effect.reply (if mentioned.isEmpty then ReplyContent.text "*Nobody.*"
                   else ReplyContent.mentionList mentioned)]

/-- `Handler::listen` (main.rs lines 282-324): missing guild ⇒ no effect;
otherwise join the caller's voice channel (or apologise). -/
def listen (guild : Option GuildId) (userVoiceChannel : Option ChannelId) :
    List Effect :=
  match guild with
  | none => []
  | some g =>
    match userVoiceChannel with
    | none => [Effect.reply (ReplyContent.text "You aren\x27t in a voice channel. Dahhh...")]
    | some ch => [Effect.joinVoice g ch, Effect.reply (ReplyContent.text "Listening...")]

/-- `Handler::download` (main.rs lines 326-382) after the `GetData` reply:
a snapshot yields a deferred response and one follow-up file per chunk;
no snapshot yields the `No voice data found` reply. -/
def download (username : String) (data : Option (List Int)) : List Effect :=
  match data with
  | some d =>
      Effect.deferResponse :: (downloadAttachments username d).map Effect.followupFile
  | none =>
      [Effect.reply (ReplyContent.text ("No voice data found for " ++ username ++ "."))]

/-- `Handler::list_sounds` (main.rs lines 384-460): missing guild ⇒ no
effect; empty board ⇒ a text reply; otherwise per group, messages of at most
`(ROWS_PER_MESSAGE - 1) * SOUNDS_PER_ROW` sounds in rows of
`SOUNDS_PER_ROW` buttons. -/
def list_sounds (guild : Option GuildId) (groups : List (String × List Sound)) :
    List Effect :=
  match guild with
  | none => []
  | some _ =>
    if groups.isEmpty then
      [Effect.reply (ReplyContent.text "There is no sounds uploaded to this server...yet.")]
    else
      Effect.deferResponse ::
        (groups.map fun gs =>
          (chunksList ((ROWS_PER_MESSAGE - 1) * SOUNDS_PER_ROW) gs.2).map fun msg =>
            Effect.sendButtonRows ((chunksList SOUNDS_PER_ROW msg).map fun row =>
              row.map soundButton)).flatten

/-- `Handler::upload` (main.rs lines 462-562): missing guild or any missing
required option ⇒ no effect; otherwise call `soundboard.add` with the mapped
color and the wrapped index, then reply with the sound's button on success
or the error text on failure. -/
def upload (guild : Option GuildId) (attachment : Option Unit)
    (name : Option String) (colorArg : Option String) (group : Option String)
    (emoji : Option Char) (indexArg : Option Int)
    (addResult : Except String Nat) : List Effect :=
  match guild with
  | none => []
  | some g =>
  match attachment with
  | none => []
  | some _ =>
  match name with
  | none => []
  | some nm =>
  match colorArg with
  | none => []
  | some cs =>
  match group with
  | none => []
  | some grp =>
    let color := colorOf cs
    let index := indexArg.map uploadIndexArg
    Effect.soundboardAdd g nm emoji color grp index ::
      (match addResult with
       | Except.ok id =>
          [Effect.reply (ReplyContent.soundButtonReply
            { custom_id := ulidToString id, label := nm, style := color,
              emoji := emoji })]
       | Except.error e => [Effect.reply (ReplyContent.text e)])

/-- `Handler::delete` (main.rs lines 564-589): missing guild or sound name ⇒
no effect; otherwise call `soundboard.delete` and reply with the outcome. -/
def delete (guild : Option GuildId) (name : Option String)
    (result : Except String Unit) : List Effect :=
  match guild with
  | none => []
  | some g =>
  match name with
  | none => []
  | some nm =>
    [Effect.soundboardDelete g nm,
     Effect.reply (ReplyContent.text
       (match result with
        | Except.ok _ => "Deleted. *(for ever)*"
        | Except.error e => e))]

end Handler

/-! ### Lemmas about chunking -/

theorem chunksList_nil {α : Type} (k : Nat) : chunksList k ([] : List α) = [] := by
  rw [chunksList]
  simp

theorem chunksList_cons {α : Type} (k : Nat) (l : List α) (hk : k ≠ 0)
    (hl : l ≠ []) : chunksList k l = l.take k :: chunksList k (l.drop k) := by
  rw [chunksList]
  simp [hk, hl]

theorem chunksList_flatten {α : Type} (k : Nat) (hk : 0 < k) (l : List α) :
    (chunksList k l).flatten = l := by
  generalize hn : l.length = n
  induction n using Nat.strong_induction_on generalizing l with
  | _ n ih =>
    rcases eq_or_ne l [] with hl | hl
    · subst hl
      simp [chunksList_nil]
    · rw [chunksList_cons k l (by omega) hl]
      have hlp : 0 < l.length := List.length_pos.mpr hl
      have hdrop : (l.drop k).length < n := by
        simp only [List.length_drop]
        omega
      rw [List.flatten_cons, ih _ hdrop (l.drop k) rfl]
      exact List.take_append_drop k l

theorem chunksList_mem_length {α : Type} (k : Nat) (l : List α) (c : List α)
    (hc : c ∈ chunksList k l) : c.length ≤ k := by
  generalize hn : l.length = n
  induction n using Nat.strong_induction_on generalizing l with
  | _ n ih =>
    subst hn
    rcases eq_or_ne l [] with hl | hl
    · subst hl
      simp [chunksList_nil] at hc
    · rcases eq_or_ne k 0 with hk | hk
      · subst hk
        rw [chunksList] at hc
        simp at hc
      · rw [chunksList_cons k l hk hl] at hc
        rcases List.mem_cons.mp hc with h | h
        · subst h
          simp
        · have hlp : 0 < l.length := List.length_pos.mpr hl
          exact ih (l.drop k).length (by simp only [List.length_drop]; omega) _ h rfl

theorem chunksList_two_le {α : Type} (k : Nat) (l : List α) (hk : 0 < k)
    (hlen : k < l.length) : 2 ≤ (chunksList k l).length := by
  have hl : l ≠ [] := by
    intro h
    subst h
    simp at hlen
  rw [chunksList_cons k l (by omega) hl]
  have hd : l.drop k ≠ [] := by
    intro h
    have := congrArg List.length h
    simp only [List.length_drop, List.length_nil] at this
    omega
  rw [chunksList_cons k (l.drop k) (by omega) hd]
  simp

theorem chunksList_single {α : Type} (k : Nat) (l : List α) (hk : 0 < k)
    (hne : l ≠ []) (hlen : l.length ≤ k) : chunksList k l = [l] := by
  rw [chunksList_cons k l (by omega) hne]
  have htake : l.take k = l := List.take_of_length_le hlen
  have hdrop : l.drop k = [] := List.drop_eq_nil_of_le hlen
  rw [htake, hdrop, chunksList_nil]

/-! ### Lemmas about the WAV byte model -/

theorem wav_header_length (dataLen : Nat) :
    (wav.header dataLen).length = wav.HEADER_SIZE := by
  simp [wav.header, u16le, u32le, wav.HEADER_SIZE]

theorem wav_samplesToBytes_length (l : List Int) :
    (wav.samplesToBytes l).length = 2 * l.length := by
  induction l with
  | nil => rfl
  | cons a t ih =>
    simp only [wav.samplesToBytes, List.map_cons, List.flatten_cons,
      List.length_append, List.length_cons] at ih ⊢
    simp [wav.sampleToBytes, u16le, ih]
    omega

theorem wav_package_length (l : List Int) :
    (wav.package l).length = wav.HEADER_SIZE + 2 * l.length := by
  simp [wav.package, wav_header_length, wav_samplesToBytes_length]

theorem wav_package_drop_header (l : List Int) :
    (wav.package l).drop wav.HEADER_SIZE = wav.samplesToBytes l := by
  have h := wav_header_length (2 * l.length)
  rw [wav.package, ← h, List.drop_left]

theorem wav_sample_decode (a : Int) (rest : List Nat) (h1 : -32768 ≤ a)
    (h2 : a < 32768) :
    wav.bytesToSamples (wav.sampleToBytes a ++ rest) =
      a :: wav.bytesToSamples rest := by
  have h65 : (0 : Int) ≤ a % 65536 := Int.emod_nonneg a (by norm_num)
  have h65b : a % 65536 < 65536 := Int.emod_lt_of_pos a (by norm_num)
  have hui : ((a % 65536).toNat : Int) = a % 65536 := Int.toNat_of_nonneg h65
  simp only [wav.sampleToBytes, u16le, List.cons_append, List.nil_append,
    wav.bytesToSamples]
  have hrec : (a % 65536).toNat % 256 + 256 * ((a % 65536).toNat / 256 % 256) =
      (a % 65536).toNat := by omega
  rw [hrec]
  congr 1
  split
  · omega
  · omega

theorem wav_roundtrip (l : List Int)
    (h : ∀ s ∈ l, -32768 ≤ s ∧ s < 32768) :
    wav.bytesToSamples (wav.samplesToBytes l) = l := by
  induction l with
  | nil => rfl
  | cons a t ih =>
    have ha := h a (List.mem_cons_self a t)
    have hrest : wav.samplesToBytes (a :: t) =
        wav.sampleToBytes a ++ wav.samplesToBytes t := by
      simp [wav.samplesToBytes]
    rw [hrest, wav_sample_decode a _ ha.1 ha.2,
      ih fun s hs => h s (List.mem_cons_of_mem a hs)]

/-! ### Lemmas about the stereo downmix -/

theorem pairsExact_mem : ∀ (l : List Int) (p : Int × Int),
    p ∈ pairsExact l → p.1 ∈ l ∧ p.2 ∈ l
  | [], p, hp => by simp [pairsExact] at hp
  | [a], p, hp => by simp [pairsExact] at hp
  | a :: b :: rest, p, hp => by
      rw [pairsExact, List.mem_cons] at hp
      rcases hp with h | h
      · subst h
        simp
      · have := pairsExact_mem rest p h
        exact ⟨List.mem_cons_of_mem _ (List.mem_cons_of_mem _ this.1),
          List.mem_cons_of_mem _ (List.mem_cons_of_mem _ this.2)⟩

theorem tdiv_two_bound (x : Int) (hlo : -65536 ≤ x) (hhi : x ≤ 65534) :
    -32768 ≤ x.tdiv 2 ∧ x.tdiv 2 ≤ 32767 := by
  rcases le_or_lt 0 x with hx | hx
  · rw [Int.tdiv_eq_ediv hx (by norm_num)]
    omega
  · have hneg : x.tdiv 2 = -((-x).tdiv 2) := by
      rw [← Int.neg_tdiv, neg_neg]
    rw [hneg, Int.tdiv_eq_ediv (by omega) (by norm_num)]
    omega

theorem i16cast_eq_self (m : Int) (h1 : -32768 ≤ m) (h2 : m ≤ 32767) :
    i16cast m = m := by
  unfold i16cast
  omega

/-! ### Lemmas about the ULID textual form -/

theorem digitsBE_length (k n : Nat) : (digitsBE k n).length = k := by
  induction k generalizing n with
  | zero => rfl
  | succ k ih => simp [digitsBE, ih]

theorem digitsBE_lt (k n : Nat) : ∀ d ∈ digitsBE k n, d < 32 := by
  induction k generalizing n with
  | zero => simp [digitsBE]
  | succ k ih =>
    intro d hd
    rw [digitsBE, List.mem_append] at hd
    rcases hd with h | h
    · exact ih (n / 32) d h
    · simp at h
      omega

theorem digitsBE_foldl (k n : Nat) (h : n < 32 ^ k) :
    (digitsBE k n).foldl (fun acc d => acc * 32 + d) 0 = n := by
  induction k generalizing n with
  | zero =>
    simp [digitsBE]
    omega
  | succ k ih =>
    have hdiv : n / 32 < 32 ^ k := by
      rw [Nat.div_lt_iff_lt_mul (by norm_num)]
      calc n < 32 ^ (k + 1) := h
        _ = 32 ^ k * 32 := by ring
    rw [digitsBE, List.foldl_append, ih (n / 32) hdiv]
    simp
    omega

theorem crockford_decode_encode : ∀ d : Fin 32,
    decodeChar (crockford.getD d.val '0') = some d.val := by decide

theorem mapM_decode_encode (l : List Nat) (h : ∀ d ∈ l, d < 32) :
    (l.map fun d => crockford.getD d '0').mapM decodeChar = some l := by
  induction l with
  | nil => rfl
  | cons a t ih =>
    have ha : a < 32 := h a (List.mem_cons_self a t)
    have hdec := crockford_decode_encode ⟨a, ha⟩
    simp only [List.map_cons, List.mapM_cons, hdec, Option.bind_eq_bind,
      Option.some_bind, ih fun d hd => h d (List.mem_cons_of_mem a hd)]
    rfl

theorem ulidFromString_mk (ds : List Nat) (hlen : ds.length = 26)
    (hlt : ∀ d ∈ ds, d < 32)
    (hval : ds.foldl (fun acc d => acc * 32 + d) 0 < 2 ^ 128) :
    ulidFromString (String.mk (ds.map fun d => crockford.getD d '0')) =
      some (ds.foldl (fun acc d => acc * 32 + d) 0) := by
  have hl : (String.mk (ds.map fun d => crockford.getD d '0')).length = 26 := by
    rw [String.length_mk, List.length_map, hlen]
  have hdata : (String.mk (ds.map fun d => crockford.getD d '0')).data
      = ds.map fun d => crockford.getD d '0' := rfl
  rw [ulidFromString, if_pos hl, hdata, mapM_decode_encode ds hlt]
  show (if ds.foldl (fun acc d => acc * 32 + d) 0 < 2 ^ 128 then
      some (ds.foldl (fun acc d => acc * 32 + d) 0) else none) =
    some (ds.foldl (fun acc d => acc * 32 + d) 0)
  rw [if_pos hval]

theorem ulid_roundtrip (n : Nat) (h : n < 2 ^ 128) :
    ulidFromString (ulidToString n) = some n := by
  have hn26 : n < 32 ^ 26 := lt_of_lt_of_le h (by decide)
  have hfold : (digitsBE 26 n).foldl (fun acc d => acc * 32 + d) 0 = n :=
    digitsBE_foldl 26 n hn26
  have hmain := ulidFromString_mk (digitsBE 26 n) (digitsBE_length 26 n)
    (digitsBE_lt 26 n) (by rw [hfold]; exact h)
  rw [hfold] at hmain
  exact hmain

/-! ### Claim theorems -/

theorem mem_of_mem_enum {α : Type} {l : List α} {ic : Nat × α}
    (h : ic ∈ l.enum) : ic.2 ∈ l := by
  obtain ⟨i, x⟩ := ic
  obtain ⟨hlt, hx⟩ := List.mem_enum h
  rw [hx]
  exact List.getElem_mem hlt

/-- C1: every snapshot handed to `download` is split into consecutive chunks
of `(MAX_FILE_SIZE - HEADER_SIZE) / 2` samples, one WAV attachment is emitted
per chunk in order, each attachment has at most `MAX_FILE_SIZE` (24 MiB)
bytes, the concatenation of the attachments' bodies decodes back to the
snapshot in order, and a snapshot at least one sample longer than a chunk
yields at least two attachments. -/
theorem download_chunking (username : String) (data : List Int)
    (hrange : ∀ s ∈ data, -32768 ≤ s ∧ s < 32768) :
    ((chunksList downloadChunk data).flatten = data ∧
      ∀ c ∈ chunksList downloadChunk data, c.length ≤ downloadChunk) ∧
    (downloadAttachments username data).length =
      (chunksList downloadChunk data).length ∧
    (∀ a ∈ downloadAttachments username data, a.data.length ≤ MAX_FILE_SIZE) ∧
    ((downloadAttachments username data).map fun a =>
      wav.bytesToSamples (a.data.drop wav.HEADER_SIZE)).flatten = data ∧
    (downloadChunk + 1 ≤ data.length →
      2 ≤ (downloadAttachments username data).length) := by
  have hk : 0 < downloadChunk := by decide
  have hflat := chunksList_flatten downloadChunk hk data
  have hlen : (downloadAttachments username data).length =
      (chunksList downloadChunk data).length := by
    rw [downloadAttachments, List.length_map, List.enum_length]
  refine ⟨⟨hflat, fun c hc => chunksList_mem_length _ _ _ hc⟩, hlen, ?_, ?_, ?_⟩
  · intro a ha
    rw [downloadAttachments, List.mem_map] at ha
    obtain ⟨ic, hic, rfl⟩ := ha
    have hc2 : ic.2 ∈ chunksList downloadChunk data := mem_of_mem_enum hic
    show (wav.package ic.2).length ≤ MAX_FILE_SIZE
    rw [wav_package_length]
    have hcl := chunksList_mem_length downloadChunk data ic.2 hc2
    have hmax : wav.HEADER_SIZE + 2 * downloadChunk ≤ MAX_FILE_SIZE := by decide
    omega
  · have hbodies : ((downloadAttachments username data).map fun a =>
        wav.bytesToSamples (a.data.drop wav.HEADER_SIZE)) =
        chunksList downloadChunk data := by
      rw [downloadAttachments, List.map_map]
      have hcongr : ∀ ic ∈ (chunksList downloadChunk data).enum,
          ((fun a : Attachment => wav.bytesToSamples (a.data.drop wav.HEADER_SIZE)) ∘
            fun ic : Nat × List Int =>
              ({ filename :=
                  if data.length ≤ downloadChunk then username ++ ".wav"
                  else username ++ "-" ++ toString (ic.1 + 1) ++ ".wav"
                 data := wav.package ic.2 } : Attachment)) ic = ic.2 := by
        intro ic hic
        have hc2 : ic.2 ∈ chunksList downloadChunk data := mem_of_mem_enum hic
        simp only [Function.comp_apply]
        rw [wav_package_drop_header]
        refine wav_roundtrip ic.2 fun s hs => hrange s ?_
        rw [← hflat]
        exact List.mem_flatten.mpr ⟨ic.2, hc2, hs⟩
      rw [List.map_congr_left hcongr]
      exact List.enum_map_snd _
    rw [hbodies, hflat]
  · intro h2
    rw [hlen]
    exact chunksList_two_le downloadChunk data hk (by omega)

theorem download_chunking_witness :
    (∀ s ∈ ([1, -32768, 32767] : List Int), -32768 ≤ s ∧ s < 32768) ∧
    (chunksList downloadChunk ([1, -32768, 32767] : List Int)).flatten =
      [1, -32768, 32767] :=
  ⟨by decide, (download_chunking "u" [1, -32768, 32767] (by decide)).1.1⟩

/-- C2: each interleaved stereo (L, R) pair of a voice packet is forwarded as
the single mono sample `(L + R) / 2` computed in 32-bit arithmetic with
truncation toward zero: the `as i16` cast never wraps, the 32-bit
intermediate sum never overflows, and the result is again a 16-bit sample. -/
theorem act_downmix (audio : List Int)
    (h : ∀ s ∈ audio, -32768 ≤ s ∧ s < 32768) :
    downmixStereo audio =
      ((pairsExact audio).map fun p => (p.1 + p.2).tdiv 2) ∧
    (∀ ssrc : Nat, voicePacketAction ssrc audio =
      recorder.Action.RegisterVoiceData ssrc
        ((pairsExact audio).map fun p => (p.1 + p.2).tdiv 2)) ∧
    (∀ p ∈ pairsExact audio, -(2 ^ 31) ≤ p.1 + p.2 ∧ p.1 + p.2 < 2 ^ 31) ∧
    ∀ m ∈ downmixStereo audio, -32768 ≤ m ∧ m < 32768 := by
  have hb : ∀ p ∈ pairsExact audio, -65536 ≤ p.1 + p.2 ∧ p.1 + p.2 ≤ 65534 := by
    intro p hp
    obtain ⟨h1, h2⟩ := pairsExact_mem audio p hp
    have hp1 := h p.1 h1
    have hp2 := h p.2 h2
    omega
  have heq : downmixStereo audio =
      (pairsExact audio).map fun p => (p.1 + p.2).tdiv 2 := by
    rw [downmixStereo]
    apply List.map_congr_left
    intro p hp
    have hpb := hb p hp
    have ht := tdiv_two_bound (p.1 + p.2) hpb.1 hpb.2
    exact i16cast_eq_self _ ht.1 ht.2
  refine ⟨heq, ?_, ?_, ?_⟩
  · intro ssrc
    rw [voicePacketAction, heq]
  · intro p hp
    have hpb := hb p hp
    have h31 : (2 : Int) ^ 31 = 2147483648 := by norm_num
    omega
  · intro m hm
    rw [heq, List.mem_map] at hm
    obtain ⟨p, hp, rfl⟩ := hm
    have hpb := hb p hp
    have ht := tdiv_two_bound (p.1 + p.2) hpb.1 hpb.2
    omega

theorem act_downmix_witness :
    (∀ s ∈ ([32767, 32767, -32768, -1] : List Int), -32768 ≤ s ∧ s < 32768) ∧
    downmixStereo [32767, 32767, -32768, -1] =
      ((pairsExact [32767, 32767, -32768, -1]).map fun p => (p.1 + p.2).tdiv 2) :=
  ⟨by decide, (act_downmix [32767, 32767, -32768, -1] (by decide)).1⟩

/-- C3: on a voice-state update, a referenced cached channel triggers a
disconnect from its guild exactly when it is a voice channel whose only
member is the bot; a non-voice channel, or any member other than the bot,
yields no disconnect. -/
theorem voice_auto_leave (cache : ChannelId → Option GuildChannel)
    (botId : UserId) (channel : ChannelId) (c : GuildChannel)
    (hc : cache channel = some c) :
    (c.kind = ChanKind.voice → c.members = [botId] →
      disconnectIfAlone cache botId channel = some c.guildId) ∧
    (c.kind ≠ ChanKind.voice → disconnectIfAlone cache botId channel = none) ∧
    ((∃ u ∈ c.members, u ≠ botId) →
      disconnectIfAlone cache botId channel = none) ∧
    ∀ oldChannel newChannel : Option ChannelId,
      (oldChannel = some channel ∨ newChannel = some channel) →
      c.kind = ChanKind.voice → c.members = [botId] →
      c.guildId ∈ voiceStateUpdate cache botId oldChannel newChannel := by
  have hdisc : c.kind = ChanKind.voice → c.members = [botId] →
      disconnectIfAlone cache botId channel = some c.guildId := by
    intro hk hm
    simp [disconnectIfAlone, hc, hk, hm]
  refine ⟨hdisc, ?_, ?_, ?_⟩
  · intro hk
    simp [disconnectIfAlone, hc, hk]
  · rintro ⟨u, hu, hne⟩
    by_cases hk : c.kind = ChanKind.voice
    · have hcond : ¬(c.members.length = 1 ∧ c.members.head? = some botId) := by
        rintro ⟨hlen, hhead⟩
        obtain ⟨x, hx⟩ := List.length_eq_one.mp hlen
        rw [hx] at hhead hu
        simp only [List.head?_cons, Option.some.injEq] at hhead
        exact hne ((List.mem_singleton.mp hu).trans hhead)
      simp [disconnectIfAlone, hc, hk, hcond]
    · simp [disconnectIfAlone, hc, hk]
  · rintro oldC newC (h | h) hk hm
    · subst h
      have hd := hdisc hk hm
      simp [voiceStateUpdate, hd]
    · subst h
      have hd := hdisc hk hm
      simp [voiceStateUpdate, hd]

theorem voice_auto_leave_witness :
    ((fun _ : ChannelId => some (GuildChannel.mk ChanKind.voice [7] 9)) 0 =
      some (GuildChannel.mk ChanKind.voice [7] 9)) ∧
    disconnectIfAlone (fun _ => some (GuildChannel.mk ChanKind.voice [7] 9))
      7 0 = some 9 :=
  ⟨rfl, (voice_auto_leave _ 7 0 _ rfl).1 rfl rfl⟩

/-- C4: the button rendered for a sound carries as `custom_id` exactly the
textual (lexicographic ULID) form of the sound's id, and parsing that
`custom_id` as the click handler does yields the original id back. -/
theorem sound_button_roundtrip (s : Sound) (h : s.id < 2 ^ 128) :
    (soundButton s).custom_id = ulidToString s.id ∧
    ulidFromString (soundButton s).custom_id = some s.id :=
  ⟨rfl, ulid_roundtrip s.id h⟩

theorem sound_button_roundtrip_witness :
    (5 : Nat) < 2 ^ 128 ∧
    ulidFromString (soundButton (Sound.mk 5 "ding" none ButtonStyle.Primary)).custom_id =
      some 5 :=
  ⟨by decide,
    (sound_button_roundtrip (Sound.mk 5 "ding" none ButtonStyle.Primary) (by decide)).2⟩

/-- C5: a download whose snapshot is longer than one chunk emits attachments
named `{user}-1.wav`, `{user}-2.wav`, … in chunk order (numbers starting at
1), each being a complete WAV: its own header followed by its chunk's
little-endian samples; and there are at least two of them. -/
theorem download_multi_chunk (username : String) (data : List Int)
    (h : downloadChunk < data.length) :
    2 ≤ (downloadAttachments username data).length ∧
    downloadAttachments username data =
      (chunksList downloadChunk data).enum.map fun ic =>
        { filename := username ++ "-" ++ toString (ic.1 + 1) ++ ".wav"
          data := wav.header (2 * ic.2.length) ++ wav.samplesToBytes ic.2 } := by
  constructor
  · rw [downloadAttachments, List.length_map, List.enum_length]
    exact chunksList_two_le downloadChunk data (by decide) h
  · rw [downloadAttachments]
    apply List.map_congr_left
    intro ic _
    rw [if_neg (not_le.mpr h)]
    rfl

theorem download_multi_chunk_witness :
    downloadChunk < (List.replicate (downloadChunk + 1) (0 : Int)).length ∧
    2 ≤ (downloadAttachments "u" (List.replicate (downloadChunk + 1) (0 : Int))).length :=
  ⟨by rw [List.length_replicate]; omega,
    (download_multi_chunk "u" _ (by rw [List.length_replicate]; omega)).1⟩

/-- C10: a download whose non-empty snapshot fits in one chunk (length at
most `(MAX_FILE_SIZE - HEADER_SIZE) / 2`, boundary included) emits exactly
one attachment, named `{user}.wav` with no numeric suffix. -/
theorem download_single_chunk (username : String) (data : List Int)
    (hne : data ≠ []) (hlen : data.length ≤ downloadChunk) :
    downloadAttachments username data =
      [{ filename := username ++ ".wav", data := wav.package data }] := by
  rw [downloadAttachments, chunksList_single downloadChunk data (by decide) hne hlen]
  have henum : ([data] : List (List Int)).enum = [(0, data)] := rfl
  rw [henum]
  simp [hlen]

theorem download_single_chunk_witness :
    (([5] : List Int) ≠ [] ∧ ([5] : List Int).length ≤ downloadChunk) ∧
    downloadAttachments "u" [5] =
      [{ filename := "u" ++ ".wav", data := wav.package [5] }] :=
  ⟨⟨by decide, by decide⟩, download_single_chunk "u" [5] (by decide) (by decide)⟩

/-- C6: every guild-only interaction (component click, `list`, `listen`,
`sounds`, `upload`, `delete`) arriving without a guild id returns silently:
no reply, no recorder action, no soundboard call. -/
theorem guild_only_silent :
    (∀ (customId : String) (getWav : Nat → Option (List Nat)) (inCall : Bool),
      Handler.dispatch_component none customId getWav inCall = some []) ∧
    (∀ whitelist guildMembers : List UserId,
      Handler.list none whitelist guildMembers = []) ∧
    (∀ vc : Option ChannelId, Handler.listen none vc = []) ∧
    (∀ groups : List (String × List Sound), Handler.list_sounds none groups = []) ∧
    (∀ (att : Option Unit) (nm cs grp : Option String) (emoji : Option Char)
      (idx : Option Int) (res : Except String Nat),
      Handler.upload none att nm cs grp emoji idx res = []) ∧
    (∀ (nm : Option String) (res : Except String Unit),
      Handler.delete none nm res = []) :=
  ⟨fun _ _ _ => rfl, fun _ _ => rfl, fun _ => rfl, fun _ => rfl,
    fun _ _ _ _ _ _ _ => rfl, fun _ _ => rfl⟩

/-- C7: the set of users mentioned by the `list` reply in a guild is exactly
the intersection of the recorder whitelist with the guild's members. -/
theorem list_mentions (g : GuildId) (whitelist guildMembers : List UserId) :
    ∀ u : UserId,
      u ∈ mentionedUsers (Handler.list (some g) whitelist guildMembers) ↔
        u ∈ whitelist ∧ u ∈ guildMembers := by
  intro u
  have hred : mentionedUsers (Handler.list (some g) whitelist guildMembers) =
      if (whitelist.filter fun x => guildMembers.contains x).isEmpty then []
      else whitelist.filter fun x => guildMembers.contains x := by
    show mentionedUsers
        [Effect.recorderSend recorder.Action.GetWhitelist,
         Effect.reply
           (if (whitelist.filter fun x => guildMembers.contains x).isEmpty
            then ReplyContent.text "*Nobody.*"
            else ReplyContent.mentionList
              (whitelist.filter fun x => guildMembers.contains x))] = _
    by_cases hemp : (whitelist.filter fun x => guildMembers.contains x).isEmpty
    · rw [if_pos hemp, if_pos hemp]
      rfl
    · rw [if_neg hemp, if_neg hemp]
      simp [mentionedUsers]
  rw [hred]
  by_cases hemp : (whitelist.filter fun x => guildMembers.contains x).isEmpty
  · rw [if_pos hemp]
    have hnil := List.isEmpty_iff.mp hemp
    constructor
    · intro h
      simp at h
    · rintro ⟨h1, h2⟩
      have hmem : u ∈ whitelist.filter fun x => guildMembers.contains x :=
        List.mem_filter.mpr ⟨h1, by simpa using h2⟩
      rw [hnil] at hmem
      simp at hmem
  · rw [if_neg hemp, List.mem_filter]
    simp

/-- C8: an `upload` carrying integer index argument `n` passes the
soundboard the index `(n - 1)` cast to `usize` with two's-complement
wrapping: `n = 1` becomes position 0, `n = 0` becomes `2 ^ 64 - 1`, and the
command is not rejected for `n` below 1 (the `add` call is still made). -/
theorem upload_index_wrap (g : GuildId) (nm cs grp : String)
    (emoji : Option Char) (res : Except String Nat) (n : Int) :
    (Handler.upload (some g) (some ()) (some nm) (some cs) (some grp) emoji
        (some n) res).head? =
      some (Effect.soundboardAdd g nm emoji (colorOf cs) grp
        (some (((n - 1) % (2 ^ 64 : Int)).toNat))) ∧
    uploadIndexArg 1 = 0 ∧ uploadIndexArg 0 = 2 ^ 64 - 1 :=
  ⟨rfl, by decide, by decide⟩

/-- C9: the `upload` color string maps to a button style by blue → Primary,
green → Success, red → Danger, grey → Secondary, and any other string falls
through to Primary instead of an error. -/
theorem upload_color_map :
    colorOf "blue" = ButtonStyle.Primary ∧
    colorOf "green" = ButtonStyle.Success ∧
    colorOf "red" = ButtonStyle.Danger ∧
    colorOf "grey" = ButtonStyle.Secondary ∧
    ∀ s : String, s ≠ "blue" → s ≠ "green" → s ≠ "red" → s ≠ "grey" →
      colorOf s = ButtonStyle.Primary := by
  refine ⟨by decide, by decide, by decide, by decide, ?_⟩
  intro s h1 h2 h3 h4
  rw [colorOf, if_neg h1, if_neg h2, if_neg h3, if_neg h4]

theorem upload_color_map_witness :
    ("purple" : String) ≠ "blue" ∧ colorOf "purple" = ButtonStyle.Primary :=
  ⟨by decide,
    upload_color_map.2.2.2.2 "purple" (by decide) (by decide) (by decide) (by decide)⟩
